import Mathlib

/-!
Shallow embedding of the streaming decoder inside the Tauri command
chat_mastra (src/src-tauri/src/lib.rs, lines 255-435).

Modelling conventions:
  * Rust String values are modelled as List Char; raw transport bytes as
    List Nat (each < 256 for real inputs).
  * String::from_utf8_lossy is modelled by utf8Lossy, following Rust's
    documented "U+FFFD substitution of maximal subparts" policy.
  * serde_json::from_str::<serde_json::Value> is modelled by jsonParse,
    a fuel-driven recursive-descent parser of RFC 8259 JSON with
    serde_json's whole-input requirement and nesting-depth limit.
  * Instant::now() is modelled by an injected clock : Nat -> Nat giving the
    millisecond reading of the n-th clock read of the session; the state
    carries the count of reads performed so far.
  * A Rust panic (an out-of-bounds or non-char-boundary string slice) is
    modelled by returning none; a none result of processLine / runSession
    means the command aborts by panicking at that point.
-/

/-- Events delivered to the window: chat_chunk, chat_stream_error,
chat_stream_end notifications. -/
inductive Event where
  | textChunk (s : List Char)
  | streamError (s : List Char)
  | streamEnd
deriving DecidableEq

/-- Result value of the chat_mastra command: Ok(()) or Err(msg). -/
inductive Outcome where
  | completed
  | failed (msg : List Char)
deriving DecidableEq

/-- Unicode White_Space property, the set trimmed by Rust str::trim. -/
def rustIsWhitespace (c : Char) : Bool :=
  let n := c.toNat
  n == 0x09 || n == 0x0A || n == 0x0B || n == 0x0C || n == 0x0D ||
  n == 0x20 || n == 0x85 || n == 0xA0 || n == 0x1680 ||
  (decide (0x2000 ≤ n) && decide (n ≤ 0x200A)) ||
  n == 0x2028 || n == 0x2029 || n == 0x202F || n == 0x205F || n == 0x3000

/-- Model of Rust str::trim: strip leading and trailing whitespace. -/
def rustTrim (l : List Char) : List Char :=
  ((l.dropWhile rustIsWhitespace).reverse.dropWhile rustIsWhitespace).reverse

/-- Number of bytes of the UTF-8 encoding of a character
(Rust char::len_utf8). -/
def charBytes (c : Char) : Nat :=
  if c.toNat < 0x80 then 1
  else if c.toNat < 0x800 then 2
  else if c.toNat < 0x10000 then 3
  else 4

/-- Byte length of a Rust string (String::len), on its character list. -/
def byteLen (l : List Char) : Nat := (l.map charBytes).sum

/-- Model of the Rust slice s[n..]: drops the first n BYTES. Returns none
when n is not a character boundary or exceeds the length, which in Rust is
a panic. -/
def byteDrop : Nat → List Char → Option (List Char)
  | 0, l => some l
  | _ + 1, [] => none
  | n + 1, c :: cs =>
    if n + 1 < charBytes c then none else byteDrop (n + 1 - charBytes c) cs

/-- The replacement character U+FFFD. -/
def replacementChar : Char := Char.ofNat 0xFFFD

/-- Whether a byte is a UTF-8 continuation byte. -/
def isCont (b : Nat) : Bool := decide (0x80 ≤ b) && decide (b ≤ 0xBF)

/-- Worker of the from_utf8_lossy model. The first argument is fuel for
structural recursion; each step consumes at least one byte and one unit of
fuel, so fuel equal to the byte count (as supplied by utf8Lossy) never runs
out. -/
def utf8LossyGo : Nat → List Nat → List Char
  | 0, _ => []
  | _ + 1, [] => []
  | fuel + 1, b :: bs =>
    if b < 0x80 then Char.ofNat b :: utf8LossyGo fuel bs
    else if 0xC2 ≤ b ∧ b ≤ 0xDF then
      match bs with
      | [] => [replacementChar]
      | b1 :: bs1 =>
        if isCont b1 then
          Char.ofNat ((b - 0xC0) * 0x40 + (b1 - 0x80)) :: utf8LossyGo fuel bs1
        else replacementChar :: utf8LossyGo fuel (b1 :: bs1)
    else if 0xE0 ≤ b ∧ b ≤ 0xEF then
      let lo := if b = 0xE0 then 0xA0 else 0x80
      let hi := if b = 0xED then 0x9F else 0xBF
      match bs with
      | [] => [replacementChar]
      | b1 :: bs1 =>
        if decide (lo ≤ b1) && decide (b1 ≤ hi) then
          match bs1 with
          | [] => [replacementChar]
          | b2 :: bs2 =>
            if isCont b2 then
              Char.ofNat ((b - 0xE0) * 0x1000 + (b1 - 0x80) * 0x40 + (b2 - 0x80))
                :: utf8LossyGo fuel bs2
            else replacementChar :: utf8LossyGo fuel (b2 :: bs2)
        else replacementChar :: utf8LossyGo fuel (b1 :: bs1)
    else if 0xF0 ≤ b ∧ b ≤ 0xF4 then
      let lo := if b = 0xF0 then 0x90 else 0x80
      let hi := if b = 0xF4 then 0x8F else 0xBF
      match bs with
      | [] => [replacementChar]
      | b1 :: bs1 =>
        if decide (lo ≤ b1) && decide (b1 ≤ hi) then
          match bs1 with
          | [] => [replacementChar]
          | b2 :: bs2 =>
            if isCont b2 then
              match bs2 with
              | [] => [replacementChar]
              | b3 :: bs3 =>
                if isCont b3 then
                  Char.ofNat ((b - 0xF0) * 0x40000 + (b1 - 0x80) * 0x1000 +
                      (b2 - 0x80) * 0x40 + (b3 - 0x80)) :: utf8LossyGo fuel bs3
                else replacementChar :: utf8LossyGo fuel (b3 :: bs3)
            else replacementChar :: utf8LossyGo fuel (b2 :: bs2)
        else replacementChar :: utf8LossyGo fuel (b1 :: bs1)
    else replacementChar :: utf8LossyGo fuel bs

/-- Model of String::from_utf8_lossy: decode a byte list to characters,
replacing each maximal invalid subpart by one U+FFFD (the policy Rust
documents and implements). -/
def utf8Lossy (l : List Nat) : List Char := utf8LossyGo l.length l

/-- JSON values as parsed by serde_json::from_str::<serde_json::Value>.
Number values keep their lexeme; the decoder only ever asks whether a value
is a string or looks up an object field, so the numeric value is opaque. -/
inductive Json where
  | null
  | bool (b : Bool)
  | num (s : List Char)
  | str (s : List Char)
  | arr (xs : List Json)
  | obj (kvs : List (List Char × Json))

/-- JSON insignificant whitespace. -/
def jsonWs (c : Char) : Bool := c = ' ' || c = '\t' || c = '\n' || c = '\r'

/-- Skip JSON whitespace. -/
def skipWs (l : List Char) : List Char := l.dropWhile jsonWs

/-- Value of one hex digit. -/
def hexVal (c : Char) : Option Nat :=
  if '0' ≤ c ∧ c ≤ '9' then some (c.toNat - '0'.toNat)
  else if 'a' ≤ c ∧ c ≤ 'f' then some (c.toNat - 'a'.toNat + 10)
  else if 'A' ≤ c ∧ c ≤ 'F' then some (c.toNat - 'A'.toNat + 10)
  else none

/-- Translation of a single-character escape after a backslash. -/
def escChar (c : Char) : Option Char :=
  if c = '"' then some '"'
  else if c = '\\' then some '\\'
  else if c = '/' then some '/'
  else if c = 'b' then some (Char.ofNat 0x08)
  else if c = 'f' then some (Char.ofNat 0x0C)
  else if c = 'n' then some '\n'
  else if c = 'r' then some '\r'
  else if c = 't' then some '\t'
  else none

/-- Worker of the JSON string-literal body parser; the first argument is
fuel for structural recursion, at least one character being consumed per
unit. -/
def parseStringBodyGo : Nat → List Char → Option (List Char × List Char)
  | 0, _ => none
  | _ + 1, [] => none
  | fuel + 1, cur :: rest0 =>
    if cur = '"' then some ([], rest0)
    else if cur = '\\' then
      match rest0 with
      | 'u' :: h1 :: h2 :: h3 :: h4 :: rest2 =>
        match hexVal h1, hexVal h2, hexVal h3, hexVal h4 with
        | some a, some b, some c, some d =>
          let n := ((a * 16 + b) * 16 + c) * 16 + d
          if decide (0xD800 ≤ n) && decide (n ≤ 0xDBFF) then
            match rest2 with
            | '\\' :: 'u' :: g1 :: g2 :: g3 :: g4 :: rest3 =>
              match hexVal g1, hexVal g2, hexVal g3, hexVal g4 with
              | some e, some f, some g, some h =>
                let m := ((e * 16 + f) * 16 + g) * 16 + h
                if decide (0xDC00 ≤ m) && decide (m ≤ 0xDFFF) then
                  match parseStringBodyGo fuel rest3 with
                  | some (s, r) =>
                    some (Char.ofNat (0x10000 + (n - 0xD800) * 0x400 + (m - 0xDC00)) :: s, r)
                  | none => none
                else none
              | _, _, _, _ => none
            | _ => none
          else if decide (0xDC00 ≤ n) && decide (n ≤ 0xDFFF) then none
          else
            match parseStringBodyGo fuel rest2 with
            | some (s, r) => some (Char.ofNat n :: s, r)
            | none => none
        | _, _, _, _ => none
      | e :: rest2 =>
        match escChar e with
        | some c =>
          match parseStringBodyGo fuel rest2 with
          | some (s, r) => some (c :: s, r)
          | none => none
        | none => none
      | [] => none
    else if cur.toNat < 0x20 then none
    else
      match parseStringBodyGo fuel rest0 with
      | some (s, r) => some (cur :: s, r)
      | none => none

/-- Parse the body of a JSON string literal after its opening quote,
returning the decoded content and the input after the closing quote.
Unescaped control characters and lone surrogates are errors, as in
serde_json's strict default mode. -/
def parseStringBody (l : List Char) : Option (List Char × List Char) :=
  parseStringBodyGo l.length l

/-- Parse the fraction-and-exponent tail of a JSON number; intPart is the
lexeme recognized so far. -/
def parseNumberTail (intPart : List Char) (l : List Char) : Option (List Char × List Char) :=
  let fracStep : Option (List Char × List Char) :=
    match l with
    | '.' :: r =>
      let ds := r.takeWhile Char.isDigit
      if ds.isEmpty then none else some ('.' :: ds, r.dropWhile Char.isDigit)
    | _ => some ([], l)
  match fracStep with
  | none => none
  | some (frac, l2) =>
    match l2 with
    | c :: r =>
      if c = 'e' ∨ c = 'E' then
        let sgnSplit : List Char × List Char :=
          match r with
          | s :: r1 => if s = '+' ∨ s = '-' then ([s], r1) else ([], s :: r1)
          | [] => ([], [])
        let ds := sgnSplit.2.takeWhile Char.isDigit
        if ds.isEmpty then none
        else some (intPart ++ frac ++ c :: sgnSplit.1 ++ ds, sgnSplit.2.dropWhile Char.isDigit)
      else some (intPart ++ frac, l2)
    | [] => some (intPart ++ frac, [])

/-- Parse a JSON number lexeme from the head of the input. -/
def parseNumber (l : List Char) : Option (List Char × List Char) :=
  let negSplit : List Char × List Char :=
    match l with
    | '-' :: r => (['-'], r)
    | _ => ([], l)
  match negSplit.2 with
  | '0' :: r => parseNumberTail (negSplit.1 ++ ['0']) r
  | c :: r =>
    if c.isDigit then
      parseNumberTail (negSplit.1 ++ c :: r.takeWhile Char.isDigit) (r.dropWhile Char.isDigit)
    else none
  | [] => none

mutual

/-- Recursive-descent JSON value parser. The first argument is fuel (enough
fuel is supplied at the top so that it never runs out on any input); the
second is the remaining nesting depth, modelling serde_json's
recursion limit of 128 for arrays and objects. -/
def parseValue : Nat → Nat → List Char → Option (Json × List Char)
  | 0, _, _ => none
  | fuel + 1, depth, input =>
    match skipWs input with
    | 'n' :: 'u' :: 'l' :: 'l' :: r => some (Json.null, r)
    | 't' :: 'r' :: 'u' :: 'e' :: r => some (Json.bool true, r)
    | 'f' :: 'a' :: 'l' :: 's' :: 'e' :: r => some (Json.bool false, r)
    | '"' :: r =>
      match parseStringBody r with
      | some (s, rest) => some (Json.str s, rest)
      | none => none
    | '[' :: r =>
      if depth = 0 then none
      else
        match skipWs r with
        | ']' :: r2 => some (Json.arr [], r2)
        | _ => parseArrayRest fuel (depth - 1) r []
    | '\x7b' :: r =>
      if depth = 0 then none
      else
        match skipWs r with
        | '\x7d' :: r2 => some (Json.obj [], r2)
        | _ => parseObjRest fuel (depth - 1) r []
    | l =>
      match parseNumber l with
      | some (s, rest) => some (Json.num s, rest)
      | none => none

/-- Parse the remaining comma-separated elements of a JSON array, the
opening bracket already consumed and the array known to be non-empty. -/
def parseArrayRest : Nat → Nat → List Char → List Json → Option (Json × List Char)
  | 0, _, _, _ => none
  | fuel + 1, depth, l, acc =>
    match parseValue fuel depth l with
    | none => none
    | some (v, r) =>
      match skipWs r with
      | ',' :: r2 => parseArrayRest fuel depth r2 (acc ++ [v])
      | ']' :: r2 => some (Json.arr (acc ++ [v]), r2)
      | _ => none

/-- Parse the remaining key-value members of a JSON object, the opening
brace already consumed and the object known to be non-empty. -/
def parseObjRest : Nat → Nat → List Char → List (List Char × Json) → Option (Json × List Char)
  | 0, _, _, _ => none
  | fuel + 1, depth, l, acc =>
    match skipWs l with
    | '"' :: r =>
      match parseStringBody r with
      | none => none
      | some (k, r2) =>
        match skipWs r2 with
        | ':' :: r3 =>
          match parseValue fuel depth r3 with
          | none => none
          | some (v, r4) =>
            match skipWs r4 with
            | ',' :: r5 => parseObjRest fuel depth r5 (acc ++ [(k, v)])
            | '\x7d' :: r5 => some (Json.obj (acc ++ [(k, v)]), r5)
            | _ => none
        | _ => none
    | _ => none

end

/-- Model of serde_json::from_str::<serde_json::Value>: the whole input,
modulo surrounding whitespace, must be one JSON value. -/
def jsonParse (l : List Char) : Option Json :=
  match parseValue (2 * l.length + 4) 128 l with
  | some (v, rest) => if (skipWs rest).isEmpty then some v else none
  | none => none

/-- Model of serde_json::Value::as_str. -/
def Json.asStr : Json → Option (List Char)
  | Json.str s => some s
  | _ => none

/-- Model of serde_json::Value::get with a string key: object member
lookup, last duplicate winning as in serde_json's map insertion. -/
def Json.getField (j : Json) (k : List Char) : Option Json :=
  match j with
  | Json.obj kvs => (kvs.reverse.find? (fun kv => decide (kv.1 = k))).map (fun kv => kv.2)
  | _ => none

/-- Coalescing-emitter state inside one decode session: accumulated_text,
last_emit, the number of Instant::now() reads made so far (indexing into
the injected clock), and the events emitted so far. -/
structure EmitSt where
  acc : List Char
  lastEmit : Nat
  clockIdx : Nat
  events : List Event
deriving DecidableEq

/-- The inlined accept step of the coalescing emitter (lib.rs lines
314-324, repeated at lines 329-338, 387-396, 399-408): append the resolved
text to accumulated_text, read the clock, and flush the whole buffer as one
chat_chunk if its byte length exceeds sizeTh or the elapsed milliseconds
since last_emit exceed timeTh. The source instantiates sizeTh = 50 and
timeTh = 100. -/
def acceptText (sizeTh timeTh : Nat) (clock : Nat → Nat) (st : EmitSt) (text : List Char) : EmitSt :=
  let acc := st.acc ++ text
  let now := clock st.clockIdx
  if sizeTh < byteLen acc ∨ timeTh < now - st.lastEmit then
    { acc := [], lastEmit := now, clockIdx := st.clockIdx + 1,
      events := st.events ++ [Event.textChunk acc] }
  else
    { st with acc := acc, clockIdx := st.clockIdx + 1 }

/-- The flush performed on an end-of-stream marker line (lib.rs lines
346-350 for the e and d selectors, 376-380 for the SSE DONE literal): emit
accumulated_text as one chat_chunk if non-empty. It does not reset
last_emit and does not read the clock. -/
def forceFlush (st : EmitSt) : EmitSt :=
  if st.acc.isEmpty then st
  else { st with acc := [], events := st.events ++ [Event.textChunk st.acc] }

/-- Resolution of the payload of a multiplexed 0: text line (lib.rs lines
312-339): if the payload parses as JSON, take it when it is a string
literal and otherwise drop the frame; if JSON parsing fails, strip one
surrounding pair of double quotes when present; otherwise drop. -/
def mastraTextResolve (content : List Char) : Option (List Char) :=
  match jsonParse content with
  | some j => j.asStr
  | none =>
    if content.head? = some '"' ∧ content.getLast? = some '"' ∧ 2 ≤ byteLen content then
      some ((content.drop 1).dropLast)
    else none

/-- Resolution of the payload of a 3: error line (lib.rs lines 356-360):
strip one surrounding pair of double quotes when present, else the raw
payload. -/
def errorResolve (content : List Char) : List Char :=
  if content.head? = some '"' ∧ content.getLast? = some '"' ∧ 2 ≤ byteLen content then
    (content.drop 1).dropLast
  else content

/-- Resolution of an SSE data payload (lib.rs lines 385-409): if the
payload parses as JSON, take the string value of its text field when
present and drop the frame otherwise; if JSON parsing fails and the payload
is non-empty, take the raw payload. -/
def sseResolve (data : List Char) : Option (List Char) :=
  match jsonParse data with
  | some j => (j.getField ("text".toList)).bind Json.asStr
  | none => if data.isEmpty then none else some data

/-- Processing of one drained line (lib.rs lines 291-410): trim, skip if
empty, try the multiplexed selector grammar, then the SSE grammar. Returns
none when the payload slice of the multiplexed branch panics (byte index 2
not a character boundary). -/
def processLine (sizeTh timeTh : Nat) (clock : Nat → Nat) (st : EmitSt) (rawLine : List Char) : Option EmitSt :=
  let ln := rustTrim rawLine
  if ln.isEmpty then some st
  else if 2 ≤ byteLen ln ∧ ln[1]? = some ':' then
    match byteDrop 2 ln with
    | none => none
    | some content =>
      let sel := ln.headD '?'
      if sel = 'f' then some st
      else if sel = '0' then
        match mastraTextResolve content with
        | some t => some (acceptText sizeTh timeTh clock st t)
        | none => some st
      else if sel = 'e' ∨ sel = 'd' then some (forceFlush st)
      else if sel = '3' then
        some { st with events := st.events ++ [Event.streamError (errorResolve content)] }
      else some st
  else if ("data: ".toList).isPrefixOf ln then
    let data := ln.drop 6
    if data = ("[DONE]".toList) then some (forceFlush st)
    else
      match sseResolve data with
      | some t => some (acceptText sizeTh timeTh clock st t)
      | none => some st
  else some st

/-- Splitting of a text buffer into the complete newline-terminated lines
(the repeated buffer.find-and-drain of lib.rs lines 290-293) and the
trailing partial line kept for the next chunk. -/
def extractLines : List Char → List (List Char) × List Char
  | [] => ([], [])
  | c :: cs =>
    if c = '\n' then
      let p := extractLines cs
      ([] :: p.1, p.2)
    else
      match extractLines cs with
      | ([], r) => ([], c :: r)
      | (l :: ls, r) => ((c :: l) :: ls, r)

/-- Process a list of drained lines in order, propagating a panic. -/
def processLines (sizeTh timeTh : Nat) (clock : Nat → Nat) : EmitSt → List (List Char) → Option EmitSt
  | st, [] => some st
  | st, l :: ls =>
    match processLine sizeTh timeTh clock st l with
    | none => none
    | some st2 => processLines sizeTh timeTh clock st2 ls

/-- Full per-session decoder state: the line buffer plus the emitter
state. -/
structure DecodeState where
  buffer : List Char
  es : EmitSt
deriving DecidableEq

/-- Handling of one decoded data chunk (lib.rs lines 282-411): append the
decoded text to the line buffer, drain every complete line, and process the
lines in order. -/
def feedText (sizeTh timeTh : Nat) (clock : Nat → Nat) (st : DecodeState) (text : List Char) : Option DecodeState :=
  let p := extractLines (st.buffer ++ text)
  (processLines sizeTh timeTh clock st.es p.1).map (fun es2 => ⟨p.2, es2⟩)

/-- One item of the transport byte stream: a data chunk or a read error. -/
inductive ChunkItem where
  | ok (bytes : List Nat)
  | err (msg : List Char)

/-- The chat_stream_error message built on a transport read error
(lib.rs line 415). -/
def streamErrMsg (e : List Char) : List Char :=
  ("Error reading stream from Mastra: ".toList) ++ e

/-- Graceful end-of-stream epilogue (lib.rs lines 425-434): emit any
remaining accumulated text, then chat_stream_end, and return Ok(()). -/
def finishEOS (st : DecodeState) : List Event × Outcome :=
  let evs :=
    if st.es.acc.isEmpty then st.es.events
    else st.es.events ++ [Event.textChunk st.es.acc]
  (evs ++ [Event.streamEnd], Outcome.completed)

/-- The stream consumption loop (lib.rs lines 280-434): on a data chunk,
decode it permissively and feed it to the line buffer; on a transport read
error, emit chat_stream_error once and return Err without reading further
items; when the items are exhausted, run the graceful end-of-stream
epilogue. -/
def runChunks (sizeTh timeTh : Nat) (clock : Nat → Nat) : DecodeState → List ChunkItem → Option (List Event × Outcome)
  | st, [] => some (finishEOS st)
  | st, ChunkItem.ok bs :: rest =>
    match feedText sizeTh timeTh clock st (utf8Lossy bs) with
    | none => none
    | some st2 => runChunks sizeTh timeTh clock st2 rest
  | st, ChunkItem.err e :: _ =>
    some (st.es.events ++ [Event.streamError (streamErrMsg e)],
          Outcome.failed (streamErrMsg e))

/-- One whole decode session over the response body (lib.rs lines 273-434),
starting from an empty line buffer and an empty accumulation buffer with
last_emit = t0. The source fixes sizeTh = 50 and timeTh = 100. -/
def runSession (sizeTh timeTh : Nat) (clock : Nat → Nat) (t0 : Nat) (chunks : List ChunkItem) : Option (List Event × Outcome) :=
  runChunks sizeTh timeTh clock ⟨[], ⟨[], t0, 0, []⟩⟩ chunks

/-- The chat_stream_error message built from a non-success HTTP status and
the response body (lib.rs line 266). -/
def statusErrMsg (status body : List Char) : List Char :=
  ("Mastra server returned error (".toList) ++ status ++ ("): ".toList) ++ body

/-- The chat_mastra command after the request is sent (lib.rs lines
261-434): a non-success status emits chat_stream_error once with the
response body and returns Err without entering the stream loop; otherwise
the stream loop runs with thresholds 50 bytes and 100 milliseconds. -/
def chatMastra (statusOk : Bool) (status body : List Char) (clock : Nat → Nat) (t0 : Nat) (chunks : List ChunkItem) : Option (List Event × Outcome) :=
  if statusOk then runSession 50 100 clock t0 chunks
  else some ([Event.streamError (statusErrMsg status body)],
             Outcome.failed (statusErrMsg status body))

/-- Concatenation of the text of all TextChunk events, in emission
order. -/
def concatTexts (evs : List Event) : List Char :=
  (evs.filterMap (fun e =>
    match e with
    | Event.textChunk s => some s
    | _ => none)).flatten

/-- The resolved text a single line contributes to the accumulation buffer
(empty for lines that accept nothing). This is the clock-independent
projection of processLine used to state content preservation; the lemma
processLine_content verifies it against processLine. -/
def contribution (rawLine : List Char) : List Char :=
  let ln := rustTrim rawLine
  if ln.isEmpty then []
  else if 2 ≤ byteLen ln ∧ ln[1]? = some ':' then
    match byteDrop 2 ln with
    | none => []
    | some content =>
      let sel := ln.headD '?'
      if sel = '0' then (mastraTextResolve content).getD [] else []
  else if ("data: ".toList).isPrefixOf ln then
    let data := ln.drop 6
    if data = ("[DONE]".toList) then []
    else (sseResolve data).getD []
  else []

/-- Whether processing a line avoids the panic of the multiplexed payload
slice; verified against processLine by processLine_isSome. -/
def lineOk (rawLine : List Char) : Prop :=
  2 ≤ byteLen (rustTrim rawLine) ∧ (rustTrim rawLine)[1]? = some ':' →
    (byteDrop 2 (rustTrim rawLine)).isSome = true

instance (rawLine : List Char) : Decidable (lineOk rawLine) := by
  unfold lineOk
  infer_instance

/-- Folding the accept step of the coalescing emitter over a list of
accepted resolved texts. -/
def runEmitter (sizeTh timeTh : Nat) (clock : Nat → Nat) (st : EmitSt) (texts : List (List Char)) : EmitSt :=
  texts.foldl (acceptText sizeTh timeTh clock) st

/-- Bytes of an ASCII string literal, for stating concrete inputs. -/
def asciiBytes (s : String) : List Nat := s.toList.map Char.toNat

theorem concatTexts_append (a b : List Event) :
    concatTexts (a ++ b) = concatTexts a ++ concatTexts b := by
  simp [concatTexts]

theorem concatTexts_chunk (evs : List Event) (s : List Char) :
    concatTexts (evs ++ [Event.textChunk s]) = concatTexts evs ++ s := by
  simp [concatTexts]

theorem concatTexts_error (evs : List Event) (s : List Char) :
    concatTexts (evs ++ [Event.streamError s]) = concatTexts evs := by
  simp [concatTexts]

theorem concatTexts_end (evs : List Event) :
    concatTexts (evs ++ [Event.streamEnd]) = concatTexts evs := by
  simp [concatTexts]

theorem acceptText_content (sizeTh timeTh : Nat) (clock : Nat → Nat)
    (st : EmitSt) (text : List Char) :
    concatTexts (acceptText sizeTh timeTh clock st text).events ++
      (acceptText sizeTh timeTh clock st text).acc =
    concatTexts st.events ++ st.acc ++ text := by
  simp only [acceptText]
  split
  · simp [concatTexts_chunk]
  · simp

theorem forceFlush_content (st : EmitSt) :
    concatTexts (forceFlush st).events ++ (forceFlush st).acc =
    concatTexts st.events ++ st.acc := by
  unfold forceFlush
  split
  · rfl
  · simp_all [concatTexts_chunk, List.isEmpty_iff]

theorem forceFlush_acc (st : EmitSt) : (forceFlush st).acc = [] ∨
    (forceFlush st).acc = st.acc := by
  unfold forceFlush
  split
  · right; rfl
  · left; rfl
theorem processLine_isSome (sizeTh timeTh : Nat) (clock : Nat → Nat)
    (st : EmitSt) (rawLine : List Char) :
    (processLine sizeTh timeTh clock st rawLine).isSome = true ↔ lineOk rawLine := by
  simp only [processLine, lineOk]
  by_cases hE : (rustTrim rawLine).isEmpty
  · have hnil : rustTrim rawLine = [] := List.isEmpty_iff.mp hE
    simp [hE, hnil, byteLen]
  · by_cases hG : 2 ≤ byteLen (rustTrim rawLine) ∧ (rustTrim rawLine)[1]? = some ':'
    · cases hD : byteDrop 2 (rustTrim rawLine) with
      | none => simp [hE, hG, hD]
      | some content =>
        simp only [hE, hG, hD, if_true, if_false, Bool.false_eq_true, if_pos]
        constructor
        · intro _ _; simp
        · intro _
          (repeat' split) <;> simp
    · simp only [if_neg hG, hE, Bool.false_eq_true, if_false]
      constructor
      · intro _ h; exact absurd h hG
      · intro _
        (repeat' split) <;> simp
theorem acceptText_events (sizeTh timeTh : Nat) (clock : Nat → Nat)
    (st : EmitSt) (text : List Char) :
    ∃ new, (acceptText sizeTh timeTh clock st text).events = st.events ++ new ∧
      Event.streamEnd ∉ new := by
  simp only [acceptText]
  split
  · exact ⟨[Event.textChunk (st.acc ++ text)], rfl, by simp⟩
  · exact ⟨[], by simp, by simp⟩

theorem forceFlush_events (st : EmitSt) :
    ∃ new, (forceFlush st).events = st.events ++ new ∧ Event.streamEnd ∉ new := by
  simp only [forceFlush]
  split
  · exact ⟨[], by simp, by simp⟩
  · exact ⟨[Event.textChunk st.acc], rfl, by simp⟩

theorem processLine_spec (sizeTh timeTh : Nat) (clock : Nat → Nat)
    (st st' : EmitSt) (rawLine : List Char)
    (h : processLine sizeTh timeTh clock st rawLine = some st') :
    concatTexts st'.events ++ st'.acc =
      concatTexts st.events ++ st.acc ++ contribution rawLine ∧
    ∃ new, st'.events = st.events ++ new ∧ Event.streamEnd ∉ new := by
  by_cases hE : (rustTrim rawLine).isEmpty
  · simp only [processLine, hE, if_true, Option.some.injEq] at h
    subst h
    simp [contribution, hE]
  · by_cases hG : 2 ≤ byteLen (rustTrim rawLine) ∧ (rustTrim rawLine)[1]? = some ':'
    · cases hD : byteDrop 2 (rustTrim rawLine) with
      | none => simp [processLine, hE, hG, hD] at h
      | some content =>
        simp only [processLine, hE, hG, hD, and_self, if_true, if_false, Bool.false_eq_true,
          if_pos, Bool.not_eq_true] at h
        simp only [contribution, hE, hG, hD, and_self, if_true, if_false, Bool.false_eq_true, if_pos,
          Bool.not_eq_true]
        by_cases hf : (rustTrim rawLine).headD '?' = 'f'
        · simp only [hf, if_true] at h ⊢
          injection h with h
          subst h
          simp [hf, show ('f' : Char) ≠ '0' by decide]
        · by_cases h0 : (rustTrim rawLine).headD '?' = '0'
          · simp only [hf, h0, if_true, if_false] at h ⊢
            cases hR : mastraTextResolve content with
            | none =>
              rw [hR] at h
              injection h with h; subst h
              simp
            | some t =>
              rw [hR] at h
              injection h with h; subst h
              refine ⟨by rw [acceptText_content]; simp, acceptText_events _ _ _ _ _⟩
          · by_cases hed : (rustTrim rawLine).headD '?' = 'e' ∨ (rustTrim rawLine).headD '?' = 'd'
            · simp only [hf, h0, hed, if_true, if_false] at h ⊢
              injection h with h; subst h
              exact ⟨by rw [forceFlush_content]; simp, forceFlush_events _⟩
            · by_cases h3 : (rustTrim rawLine).headD '?' = '3'
              · simp only [hf, h0, hed, h3, if_true, if_false] at h ⊢
                injection h with h; subst h
                refine ⟨by simp [concatTexts_error], ⟨[Event.streamError (errorResolve content)], rfl, by simp⟩⟩
              · simp only [hf, h0, hed, h3, if_false] at h ⊢
                injection h with h; subst h
                simp
    · by_cases hS : ("data: ".toList).isPrefixOf (rustTrim rawLine)
      · by_cases hDone : List.drop 6 (rustTrim rawLine) = ("[DONE]".toList)
        · simp only [processLine, contribution, hE, hG, hS, hDone, if_true, if_false,
            Bool.false_eq_true] at h ⊢
          injection h with h; subst h
          exact ⟨by rw [forceFlush_content]; simp, forceFlush_events _⟩
        · cases hR : sseResolve (List.drop 6 (rustTrim rawLine)) with
          | none =>
            simp only [processLine, contribution, hE, hG, hS, hDone, hR, if_true, if_false,
              Bool.false_eq_true] at h ⊢
            injection h with h; subst h
            simp
          | some t =>
            simp only [processLine, contribution, hE, hG, hS, hDone, hR, if_true, if_false,
              Bool.false_eq_true] at h ⊢
            injection h with h; subst h
            refine ⟨by rw [acceptText_content]; simp, acceptText_events _ _ _ _ _⟩
      · simp only [processLine, contribution, hE, hG, hS, if_false, Bool.false_eq_true] at h ⊢
        injection h with h; subst h
        simp
theorem extractLines_cons_nl (cs : List Char) :
    extractLines ('\n' :: cs) = ([] :: (extractLines cs).1, (extractLines cs).2) := by
  simp [extractLines]

theorem extractLines_cons_ne (c : Char) (cs : List Char) (hc : c ≠ '\n') :
    extractLines (c :: cs) =
      (match extractLines cs with
       | ([], r) => ([], c :: r)
       | (l :: ls, r) => ((c :: l) :: ls, r)) := by
  simp [extractLines, hc]

theorem extractLines_append : ∀ (a b : List Char) (ls1 ls2 : List (List Char))
    (r1 r2 : List Char), extractLines a = (ls1, r1) →
    extractLines (r1 ++ b) = (ls2, r2) →
    extractLines (a ++ b) = (ls1 ++ ls2, r2) := by
  intro a
  induction a with
  | nil =>
    intro b ls1 ls2 r1 r2 h1 h2
    simp only [extractLines] at h1
    cases h1
    simpa using h2
  | cons c cs ih =>
    intro b ls1 ls2 r1 r2 h1 h2
    by_cases hc : c = '\n'
    · subst hc
      rw [extractLines_cons_nl] at h1
      cases hcs : extractLines cs with
      | mk lsc rc =>
        rw [hcs] at h1
        cases h1
        rw [List.cons_append, extractLines_cons_nl,
          ih b lsc ls2 rc r2 hcs h2]
        simp
    · rw [extractLines_cons_ne _ _ hc] at h1
      cases hcs : extractLines cs with
      | mk lsc rc =>
        rw [hcs] at h1
        cases lsc with
        | nil =>
          simp only at h1
          cases h1
          rw [List.cons_append, extractLines_cons_ne _ _ hc]
          cases hX : extractLines (rc ++ b) with
          | mk xs xr =>
            rw [ih b [] xs _ xr hcs hX]
            rw [List.cons_append, extractLines_cons_ne _ _ hc, hX] at h2
            simpa using h2
        | cons l0 lsc' =>
          simp only at h1
          cases h1
          rw [List.cons_append, extractLines_cons_ne _ _ hc,
            ih b (l0 :: lsc') ls2 _ r2 hcs h2]
          rfl

theorem extractLines_noNl (x : List Char) : '\n' ∉ (extractLines x).2 := by
  induction x with
  | nil => simp [extractLines]
  | cons c cs ih =>
    by_cases hc : c = '\n'
    · subst hc; simp [extractLines_cons_nl, ih]
    · rw [extractLines_cons_ne _ _ hc]
      cases hcs : extractLines cs with
      | mk ls r =>
        rw [hcs] at ih
        cases ls with
        | nil =>
          simp only at ih ⊢
          simp [List.mem_cons, Ne.symm hc]
          exact fun h => absurd h ih
        | cons l ls' => simpa using ih

theorem extractLines_of_noNl (x : List Char) (h : '\n' ∉ x) :
    extractLines x = ([], x) := by
  induction x with
  | nil => simp [extractLines]
  | cons c cs ih =>
    simp only [List.mem_cons, not_or] at h
    rw [extractLines_cons_ne _ _ (Ne.symm h.1), ih h.2]

theorem extractLines_mem_line : ∀ (x l : List Char) (c : Char),
    l ∈ (extractLines x).1 → c ∈ l → c ∈ x := by
  intro x
  induction x with
  | nil => intro l c hl; simp [extractLines] at hl
  | cons d ds ih =>
    intro l c hl hc
    by_cases hd : d = '\n'
    · subst hd
      rw [extractLines_cons_nl] at hl
      rcases List.mem_cons.mp hl with h | h
      · subst h; simp at hc
      · exact List.mem_cons_of_mem _ (ih l c h hc)
    · rw [extractLines_cons_ne _ _ hd] at hl
      cases hds : extractLines ds with
      | mk ls r =>
        rw [hds] at hl
        cases ls with
        | nil => simp at hl
        | cons l0 ls' =>
          simp only [List.mem_cons] at hl
          rcases hl with h | h
          · subst h
            rcases List.mem_cons.mp hc with h2 | h2
            · exact h2 ▸ List.mem_cons_self _ _
            · refine List.mem_cons_of_mem _ (ih l0 c ?_ h2)
              rw [hds]; exact List.mem_cons_self _ _
          · refine List.mem_cons_of_mem _ (ih l c ?_ hc)
            rw [hds]; exact List.mem_cons_of_mem _ h
theorem processLines_append (sizeTh timeTh : Nat) (clock : Nat → Nat)
    (st : EmitSt) (ls1 ls2 : List (List Char)) :
    processLines sizeTh timeTh clock st (ls1 ++ ls2) =
      (processLines sizeTh timeTh clock st ls1).bind
        (fun st2 => processLines sizeTh timeTh clock st2 ls2) := by
  induction ls1 generalizing st with
  | nil => simp [processLines]
  | cons l ls ih =>
    simp only [List.cons_append, processLines]
    cases processLine sizeTh timeTh clock st l with
    | none => simp
    | some st2 => simp [ih]

theorem processLines_spec (sizeTh timeTh : Nat) (clock : Nat → Nat) :
    ∀ (ls : List (List Char)) (st st' : EmitSt),
    processLines sizeTh timeTh clock st ls = some st' →
    concatTexts st'.events ++ st'.acc =
      concatTexts st.events ++ st.acc ++ (ls.map contribution).flatten ∧
    ∃ new, st'.events = st.events ++ new ∧ Event.streamEnd ∉ new := by
  intro ls
  induction ls with
  | nil =>
    intro st st' h
    simp only [processLines, Option.some.injEq] at h
    subst h
    exact ⟨by simp, ⟨[], by simp, by simp⟩⟩
  | cons l ls ih =>
    intro st st' h
    simp only [processLines] at h
    cases hL : processLine sizeTh timeTh clock st l with
    | none => rw [hL] at h; exact absurd h (by simp)
    | some st2 =>
      rw [hL] at h
      obtain ⟨hc2, new2, he2, hn2⟩ := ih st2 st' h
      obtain ⟨hc1, new1, he1, hn1⟩ := processLine_spec sizeTh timeTh clock st st2 l hL
      refine ⟨?_, new1 ++ new2, ?_, ?_⟩
      · rw [hc2, hc1]
        simp [List.append_assoc]
      · rw [he2, he1, List.append_assoc]
      · simp [hn1, hn2]

theorem processLines_isSome (sizeTh timeTh : Nat) (clock : Nat → Nat) :
    ∀ (ls : List (List Char)) (st : EmitSt),
    (processLines sizeTh timeTh clock st ls).isSome = true ↔ ∀ l ∈ ls, lineOk l := by
  intro ls
  induction ls with
  | nil => intro st; simp [processLines]
  | cons l ls ih =>
    intro st
    simp only [processLines]
    cases hL : processLine sizeTh timeTh clock st l with
    | none =>
      have : ¬ lineOk l := by
        rw [← processLine_isSome sizeTh timeTh clock st l, hL]
        simp
      simp [this]
    | some st2 =>
      have hok : lineOk l := by
        rw [← processLine_isSome sizeTh timeTh clock st l, hL]
        simp
      simp [ih st2, hok]
theorem feedText_comp (sizeTh timeTh : Nat) (clock : Nat → Nat)
    (st : DecodeState) (a b : List Char) :
    (feedText sizeTh timeTh clock st a).bind
        (fun st2 => feedText sizeTh timeTh clock st2 b) =
      feedText sizeTh timeTh clock st (a ++ b) := by
  simp only [feedText]
  cases hE1 : extractLines (st.buffer ++ a) with
  | mk ls1 r1 =>
    cases hE2 : extractLines (r1 ++ b) with
    | mk ls2 r2 =>
      have hE : extractLines (st.buffer ++ (a ++ b)) = (ls1 ++ ls2, r2) := by
        rw [← List.append_assoc]
        exact extractLines_append _ b ls1 ls2 r1 r2 hE1 hE2
      rw [hE]
      rw [processLines_append]
      cases processLines sizeTh timeTh clock st.es ls1 with
      | none => simp
      | some es2 => simp [hE2]

theorem feedText_spec (sizeTh timeTh : Nat) (clock : Nat → Nat)
    (st st' : DecodeState) (t : List Char)
    (h : feedText sizeTh timeTh clock st t = some st') :
    concatTexts st'.es.events ++ st'.es.acc =
      concatTexts st.es.events ++ st.es.acc ++
        ((extractLines (st.buffer ++ t)).1.map contribution).flatten ∧
    st'.buffer = (extractLines (st.buffer ++ t)).2 ∧
    ∃ new, st'.es.events = st.es.events ++ new ∧ Event.streamEnd ∉ new := by
  simp only [feedText] at h
  cases hP : processLines sizeTh timeTh clock st.es (extractLines (st.buffer ++ t)).1 with
  | none => rw [hP] at h; simp at h
  | some es2 =>
    rw [hP] at h
    simp only [Option.map_some', Option.some.injEq] at h
    obtain ⟨hc, new, he, hn⟩ := processLines_spec sizeTh timeTh clock _ _ _ hP
    subst h
    exact ⟨hc, rfl, new, he, hn⟩

theorem feedText_isSome (sizeTh timeTh : Nat) (clock : Nat → Nat)
    (st : DecodeState) (t : List Char) :
    (feedText sizeTh timeTh clock st t).isSome = true ↔
      ∀ l ∈ (extractLines (st.buffer ++ t)).1, lineOk l := by
  simp only [feedText]
  rw [← processLines_isSome sizeTh timeTh clock (extractLines (st.buffer ++ t)).1 st.es]
  cases processLines sizeTh timeTh clock st.es (extractLines (st.buffer ++ t)).1 <;> simp

theorem feedText_noNl (sizeTh timeTh : Nat) (clock : Nat → Nat)
    (st st' : DecodeState) (t : List Char)
    (h : feedText sizeTh timeTh clock st t = some st') :
    '\n' ∉ st'.buffer := by
  obtain ⟨-, hb, -⟩ := feedText_spec sizeTh timeTh clock st st' t h
  rw [hb]
  exact extractLines_noNl _
theorem finishEOS_concat (st : DecodeState) :
    concatTexts (finishEOS st).1 = concatTexts st.es.events ++ st.es.acc := by
  simp only [finishEOS]
  split
  · next h =>
    rw [concatTexts_end]
    simp [List.isEmpty_iff.mp h]
  · rw [concatTexts_end, concatTexts_chunk]

theorem finishEOS_shape (st : DecodeState) (h : Event.streamEnd ∉ st.es.events) :
    ∃ E, (finishEOS st).1 = E ++ [Event.streamEnd] ∧ Event.streamEnd ∉ E ∧
      (finishEOS st).2 = Outcome.completed := by
  simp only [finishEOS]
  split
  · exact ⟨st.es.events, rfl, h, by trivial⟩
  · refine ⟨st.es.events ++ [Event.textChunk st.es.acc], by simp, ?_, by trivial⟩
    simp [h]

theorem runChunks_okList (sizeTh timeTh : Nat) (clock : Nat → Nat) :
    ∀ (bss : List (List Nat)) (st : DecodeState), '\n' ∉ st.buffer →
    runChunks sizeTh timeTh clock st (bss.map ChunkItem.ok) =
      (feedText sizeTh timeTh clock st ((bss.map utf8Lossy).flatten)).map finishEOS := by
  intro bss
  induction bss with
  | nil =>
    intro st hb
    simp only [List.map_nil, runChunks, List.flatten_nil, feedText,
      List.append_nil, extractLines_of_noNl st.buffer hb, processLines,
      Option.map_some']
  | cons bs bss ih =>
    intro st hb
    simp only [List.map_cons, runChunks, List.flatten_cons]
    rw [← feedText_comp]
    cases hF : feedText sizeTh timeTh clock st (utf8Lossy bs) with
    | none => simp
    | some st2 =>
      simp only [Option.bind_some]
      exact ih st2 (feedText_noNl sizeTh timeTh clock st st2 _ hF)
theorem charBytes_ofNat (b : Nat) (hb : b < 128) : charBytes (Char.ofNat b) = 1 := by
  have hv : Nat.isValidChar b := Or.inl (lt_trans hb (by norm_num))
  have ht : (Char.ofNat b).toNat = b := by
    unfold Char.ofNat
    rw [dif_pos hv]
    rfl
  unfold charBytes
  rw [ht, if_pos hb]

theorem utf8Lossy_nil : utf8Lossy [] = [] := rfl

theorem utf8Lossy_cons_ascii (b : Nat) (bs : List Nat) (hb : b < 128) :
    utf8Lossy (b :: bs) = Char.ofNat b :: utf8Lossy bs := by
  unfold utf8Lossy
  rw [List.length_cons, utf8LossyGo.eq_def]
  simp only [hb, if_true, if_pos]

theorem utf8Lossy_ascii_append (a c : List Nat) (h : ∀ b ∈ a, b < 128) :
    utf8Lossy (a ++ c) = a.map Char.ofNat ++ utf8Lossy c := by
  induction a with
  | nil => simp
  | cons b bs ih =>
    have hb : b < 128 := h b (List.mem_cons_self _ _)
    have hbs : ∀ x ∈ bs, x < 128 := fun x hx => h x (List.mem_cons_of_mem _ hx)
    rw [List.cons_append, utf8Lossy_cons_ascii b _ hb, ih hbs, List.map_cons,
      List.cons_append]

theorem utf8Lossy_ascii (a : List Nat) (h : ∀ b ∈ a, b < 128) :
    utf8Lossy a = a.map Char.ofNat := by
  have h2 := utf8Lossy_ascii_append a [] h
  rw [List.append_nil, utf8Lossy_nil, List.append_nil] at h2
  exact h2

theorem utf8Lossy_flatten_ascii (bss : List (List Nat))
    (h : ∀ bs ∈ bss, ∀ b ∈ bs, b < 128) :
    (bss.map utf8Lossy).flatten = utf8Lossy bss.flatten := by
  induction bss with
  | nil => simp [utf8Lossy_nil]
  | cons bs bss ih =>
    have hbs : ∀ b ∈ bs, b < 128 := h bs (List.mem_cons_self _ _)
    have hrest : ∀ x ∈ bss, ∀ b ∈ x, b < 128 := fun x hx => h x (List.mem_cons_of_mem _ hx)
    rw [List.map_cons, List.flatten_cons, List.flatten_cons,
      utf8Lossy_ascii_append bs _ hbs, ih hrest, utf8Lossy_ascii bs hbs]
theorem rustTrim_subset (l : List Char) : ∀ c ∈ rustTrim l, c ∈ l := by
  intro c hc
  unfold rustTrim at hc
  rw [List.mem_reverse] at hc
  have h1 := (List.dropWhile_sublist (l := (l.dropWhile rustIsWhitespace).reverse)
    (p := rustIsWhitespace)).subset hc
  rw [List.mem_reverse] at h1
  exact (List.dropWhile_sublist (l := l) (p := rustIsWhitespace)).subset h1

theorem byteLen_ascii (l : List Char) (h : ∀ ch ∈ l, charBytes ch = 1) :
    byteLen l = l.length := by
  induction l with
  | nil => rfl
  | cons c cs ih =>
    have hc : charBytes c = 1 := h c (List.mem_cons_self _ _)
    have hcs : ∀ ch ∈ cs, charBytes ch = 1 := fun ch hch => h ch (List.mem_cons_of_mem _ hch)
    have h2 := ih hcs
    simp [byteLen, hc] at h2 ⊢
    omega

theorem byteDrop_two_ascii (l : List Char) (h : ∀ ch ∈ l, charBytes ch = 1)
    (hl : 2 ≤ l.length) : (byteDrop 2 l).isSome = true := by
  cases l with
  | nil => simp at hl
  | cons c1 rest =>
    cases rest with
    | nil => simp at hl
    | cons c2 rest2 =>
      have h1 : charBytes c1 = 1 := h c1 (List.mem_cons_self _ _)
      have h2 : charBytes c2 = 1 := h c2 (List.mem_cons_of_mem _ (List.mem_cons_self _ _))
      simp [byteDrop, h1, h2]

theorem lineOk_of_ascii (raw : List Char) (h : ∀ ch ∈ raw, charBytes ch = 1) :
    lineOk raw := by
  intro hG
  have htrim : ∀ ch ∈ rustTrim raw, charBytes ch = 1 :=
    fun ch hch => h ch (rustTrim_subset raw ch hch)
  refine byteDrop_two_ascii _ htrim ?_
  rw [← byteLen_ascii _ htrim]
  exact hG.1

theorem runSession_okMap (sizeTh timeTh : Nat) (clock : Nat → Nat) (t0 : Nat)
    (bss : List (List Nat)) :
    runSession sizeTh timeTh clock t0 (bss.map ChunkItem.ok) =
      (feedText sizeTh timeTh clock ⟨[], ⟨[], t0, 0, []⟩⟩
        ((bss.map utf8Lossy).flatten)).map finishEOS := by
  exact runChunks_okList sizeTh timeTh clock bss _ (by simp)

theorem runSession_ok_spec (sizeTh timeTh : Nat) (clock : Nat → Nat) (t0 : Nat)
    (bss : List (List Nat)) (evs : List Event) (o : Outcome)
    (h : runSession sizeTh timeTh clock t0 (bss.map ChunkItem.ok) = some (evs, o)) :
    o = Outcome.completed ∧
    (∃ E, evs = E ++ [Event.streamEnd] ∧ Event.streamEnd ∉ E) ∧
    concatTexts evs =
      (((extractLines ((bss.map utf8Lossy).flatten)).1.map contribution)).flatten := by
  rw [runSession_okMap] at h
  cases hF : feedText sizeTh timeTh clock ⟨[], ⟨[], t0, 0, []⟩⟩
      ((bss.map utf8Lossy).flatten) with
  | none => rw [hF] at h; simp at h
  | some st' =>
    rw [hF] at h
    simp only [Option.map_some', Option.some.injEq] at h
    obtain ⟨hc, hb, new, he, hn⟩ := feedText_spec sizeTh timeTh clock _ st' _ hF
    simp only at hc he
    have hnoEnd : Event.streamEnd ∉ st'.es.events := by
      rw [he]
      simpa [concatTexts] using hn
    obtain ⟨E, hE1, hE2, hE3⟩ := finishEOS_shape st' hnoEnd
    obtain ⟨hevs, ho⟩ : (finishEOS st').1 = evs ∧ (finishEOS st').2 = o := by
      rw [h]
      exact ⟨rfl, rfl⟩
    refine ⟨by rw [← ho, hE3], ⟨E, by rw [← hevs, hE1], hE2⟩, ?_⟩
    rw [← hevs, finishEOS_concat, hc]
    simp [concatTexts]
theorem runSession_ok_isSome (sizeTh timeTh : Nat) (clock : Nat → Nat) (t0 : Nat)
    (bss : List (List Nat)) :
    (runSession sizeTh timeTh clock t0 (bss.map ChunkItem.ok)).isSome = true ↔
      ∀ l ∈ (extractLines ((bss.map utf8Lossy).flatten)).1, lineOk l := by
  rw [runSession_okMap]
  have h := feedText_isSome sizeTh timeTh clock ⟨[], ⟨[], t0, 0, []⟩⟩
    ((bss.map utf8Lossy).flatten)
  simp only [List.nil_append] at h
  rw [← h]
  cases feedText sizeTh timeTh clock ⟨[], ⟨[], t0, 0, []⟩⟩
    ((bss.map utf8Lossy).flatten) <;> simp

theorem asciiLines_ok (s : List Nat) (hA : ∀ b ∈ s, b < 128) :
    ∀ l ∈ (extractLines (utf8Lossy s)).1, lineOk l := by
  intro l hl
  refine lineOk_of_ascii l ?_
  intro ch hch
  have hmem : ch ∈ utf8Lossy s := extractLines_mem_line _ l ch hl hch
  rw [utf8Lossy_ascii s hA] at hmem
  obtain ⟨b, hb, rfl⟩ := List.mem_map.mp hmem
  exact charBytes_ofNat b (hA b hb)
/-- C1 (amended): for every input stream consisting of ASCII bytes and for
every way of splitting its bytes into chunk boundaries (including
splitting mid-line or one byte at a time), the concatenation of the
emitted TextChunk texts, in emission order, equals the concatenation
obtained when the entire stream is delivered as one single chunk,
whatever the clock readings of the two runs. (The original claim, without
the ASCII restriction, is refuted by chunkSplit_claim_counterexample: a
chunk boundary inside one multi-byte UTF-8 character makes
String::from_utf8_lossy decode replacement characters.) -/
theorem chunkSplit_ascii_invariance
    (s : List Nat) (hA : ∀ b ∈ s, b < 128)
    (css : List (List Nat)) (hsplit : css.flatten = s)
    (clkA clkB : Nat → Nat) (t0A t0B : Nat) :
    ∃ evsA oA evsB oB,
      runSession 50 100 clkA t0A (css.map ChunkItem.ok) = some (evsA, oA) ∧
      runSession 50 100 clkB t0B [ChunkItem.ok s] = some (evsB, oB) ∧
      concatTexts evsA = concatTexts evsB := by
  have hchunks : ∀ bs ∈ css, ∀ b ∈ bs, b < 128 := by
    intro bs hbs b hb
    exact hA b (hsplit ▸ List.mem_flatten.mpr ⟨bs, hbs, hb⟩)
  have hflatA : (css.map utf8Lossy).flatten = utf8Lossy s := by
    rw [utf8Lossy_flatten_ascii css hchunks, hsplit]
  have hflatB : (([s].map utf8Lossy)).flatten = utf8Lossy s := by simp
  have hok := asciiLines_ok s hA
  have hsomeA : (runSession 50 100 clkA t0A (css.map ChunkItem.ok)).isSome = true := by
    rw [runSession_ok_isSome, hflatA]; exact hok
  have hsomeB : (runSession 50 100 clkB t0B ([s].map ChunkItem.ok)).isSome = true := by
    rw [runSession_ok_isSome, hflatB]; exact hok
  obtain ⟨⟨evsA, oA⟩, hA2⟩ := Option.isSome_iff_exists.mp hsomeA
  obtain ⟨⟨evsB, oB⟩, hB2⟩ := Option.isSome_iff_exists.mp hsomeB
  obtain ⟨-, -, hcA⟩ := runSession_ok_spec 50 100 clkA t0A css evsA oA hA2
  obtain ⟨-, -, hcB⟩ := runSession_ok_spec 50 100 clkB t0B [s] evsB oB hB2
  refine ⟨evsA, oA, evsB, oB, hA2, by simpa using hB2, ?_⟩
  rw [hcA, hcB, hflatA, hflatB]

/-- Witness for C1: the spec's own example boundary 0:"He | llo" followed
by a newline, against the whole line in one chunk, at two unrelated
clocks. -/
theorem chunkSplit_ascii_invariance_witness :
    ∃ evsA oA evsB oB,
      runSession 50 100 (fun _ => 0) 0
        ([asciiBytes ("0:\"He"), asciiBytes ("llo\"\n")].map ChunkItem.ok) = some (evsA, oA) ∧
      runSession 50 100 (fun _ => 7) 3 [ChunkItem.ok (asciiBytes ("0:\"Hello\"\n"))] = some (evsB, oB) ∧
      concatTexts evsA = concatTexts evsB :=
  chunkSplit_ascii_invariance (asciiBytes ("0:\"Hello\"\n")) (by decide)
    [asciiBytes ("0:\"He"), asciiBytes ("llo\"\n")] (by decide)
    (fun _ => 0) (fun _ => 7) 0 3

/-- Counterexample for C1 as frozen: the well-formed multiplexed stream
0:"<U+00E9>"<newline> (bytes 30 3A 22 C3 A9 22 0A) split between its two
UTF-8 continuation bytes produces two replacement characters where the
single-chunk delivery produces the letter, so the emitted text
concatenations differ. -/
theorem chunkSplit_claim_counterexample :
    (runSession 50 100 (fun _ => 0) 0
        [ChunkItem.ok [0x30, 0x3A, 0x22, 0xC3], ChunkItem.ok [0xA9, 0x22, 0x0A]]).map
        (fun p => concatTexts p.1) ≠
    (runSession 50 100 (fun _ => 0) 0
        [ChunkItem.ok [0x30, 0x3A, 0x22, 0xC3, 0xA9, 0x22, 0x0A]]).map
        (fun p => concatTexts p.1) := by
  decide
theorem forceFlush_acc_nil (st : EmitSt) : (forceFlush st).acc = [] := by
  unfold forceFlush
  split
  · next h => exact List.isEmpty_iff.mp h
  · rfl

theorem runEmitter_content (sizeTh timeTh : Nat) (clock : Nat → Nat) :
    ∀ (texts : List (List Char)) (st : EmitSt),
    concatTexts (runEmitter sizeTh timeTh clock st texts).events ++
        (runEmitter sizeTh timeTh clock st texts).acc =
      concatTexts st.events ++ st.acc ++ texts.flatten := by
  intro texts
  induction texts with
  | nil => intro st; simp [runEmitter]
  | cons t ts ih =>
    intro st
    simp only [runEmitter, List.foldl_cons, List.flatten_cons]
    have h2 := ih (acceptText sizeTh timeTh clock st t)
    simp only [runEmitter] at h2
    rw [h2, acceptText_content]
    simp [List.append_assoc]

/-- C2: for every sequence of resolved texts accepted by the coalescing
emitter during one decode session ending in a graceful end-of-stream flush,
the concatenation of all emitted TextChunk texts in emission order equals
the concatenation of all accepted texts in acceptance order, for every
size threshold, time threshold and clock: coalescing changes chunk
boundaries but never content or relative order. -/
theorem coalesce_concat_invariant (sizeTh timeTh : Nat) (clock : Nat → Nat)
    (t0 : Nat) (texts : List (List Char)) :
    concatTexts (forceFlush
        (runEmitter sizeTh timeTh clock ⟨[], t0, 0, []⟩ texts)).events =
      texts.flatten := by
  have h1 := forceFlush_content (runEmitter sizeTh timeTh clock ⟨[], t0, 0, []⟩ texts)
  rw [forceFlush_acc_nil, List.append_nil] at h1
  rw [h1, runEmitter_content]
  simp [concatTexts]

/-- C3: on graceful transport end-of-stream the decoder first emits any
non-empty accumulated text as a final TextChunk, then exactly one
StreamEnd, which is the only StreamEnd of the session; the concatenation
of all emitted TextChunk text equals the concatenation of the per-line
contributions of every complete line of the stream, so no accepted text is
lost. (A none result would mean the command panicked, which no graceful
session reaching this epilogue does.) -/
theorem gracefulEnd_streamEnd (clock : Nat → Nat) (t0 : Nat)
    (bss : List (List Nat)) (evs : List Event) (o : Outcome)
    (h : runSession 50 100 clock t0 (bss.map ChunkItem.ok) = some (evs, o)) :
    o = Outcome.completed ∧
    (∃ E, evs = E ++ [Event.streamEnd] ∧ Event.streamEnd ∉ E) ∧
    concatTexts evs =
      (((extractLines ((bss.map utf8Lossy).flatten)).1.map contribution)).flatten :=
  runSession_ok_spec 50 100 clock t0 bss evs o h

/-- Witness for C3 at the concrete stream 0:"Hello" followed by
end-of-stream. -/
theorem gracefulEnd_streamEnd_witness :
    Outcome.completed = Outcome.completed ∧
    (∃ E, [Event.textChunk ("Hello".toList), Event.streamEnd] =
        E ++ [Event.streamEnd] ∧ Event.streamEnd ∉ E) ∧
    concatTexts [Event.textChunk ("Hello".toList), Event.streamEnd] =
      (((extractLines (([asciiBytes ("0:\"Hello\"\n")].map utf8Lossy).flatten)).1.map
          contribution)).flatten :=
  gracefulEnd_streamEnd (fun _ => 0) 0 [asciiBytes ("0:\"Hello\"\n")]
    [Event.textChunk ("Hello".toList), Event.streamEnd] Outcome.completed (by decide)
/-- C4 (amended): processing a line that classifies as an ErrorFrame
(multiplexed selector 3) leaves the accumulation buffer, the flush
timestamp and the clock untouched and appends exactly one StreamError
carrying the quote-stripped payload; the source performs no flush in this
branch, so text accepted earlier stays buffered across an ErrorFrame (the
frozen claim that it is force-flushed at that point is refuted by
errorFrame_flush_counterexample). -/
theorem errorFrame_no_flush (sizeTh timeTh : Nat) (clock : Nat → Nat)
    (st : EmitSt) (rawLine content : List Char)
    (hlen : 2 ≤ byteLen (rustTrim rawLine))
    (hcolon : (rustTrim rawLine)[1]? = some ':')
    (hsel : (rustTrim rawLine).headD '?' = '3')
    (hcontent : byteDrop 2 (rustTrim rawLine) = some content) :
    processLine sizeTh timeTh clock st rawLine =
      some { st with events := st.events ++ [Event.streamError (errorResolve content)] } := by
  have hne : ¬(rustTrim rawLine).isEmpty := by
    cases hT : rustTrim rawLine with
    | nil => rw [hT] at hlen; simp [byteLen] at hlen
    | cons c cs => simp
  simp only [processLine, hne, hlen, hcolon, hsel, hcontent, and_self, if_true,
    if_false, Bool.false_eq_true]
  rfl

/-- Witness for C4's amended statement: a 3:"err" line processed while
"hi" is buffered emits StreamError("err") and leaves "hi" buffered. -/
theorem errorFrame_no_flush_witness :
    processLine 50 100 (fun _ => 0) ⟨("hi".toList), 0, 0, []⟩ ("3:\"err\"".toList) =
      some { acc := ("hi".toList), lastEmit := 0, clockIdx := 0,
             events := [Event.streamError ("err".toList)] } := by
  have h := errorFrame_no_flush 50 100 (fun _ => 0) ⟨("hi".toList), 0, 0, []⟩
    ("3:\"err\"".toList) ("\"err\"".toList) (by decide) (by decide) (by decide) (by decide)
  simpa using h

/-- Counterexample for C4 as frozen: in the session 0:"hi" then 3:"err"
then end-of-stream, the buffered text "hi" is emitted only by the
end-of-stream flush, after the StreamError, so it was still buffered when
the ErrorFrame was classified: no flush happened at that point. -/
theorem errorFrame_flush_counterexample :
    runSession 50 100 (fun _ => 0) 0
        [ChunkItem.ok (asciiBytes ("0:\"hi\"\n3:\"err\"\n"))] =
      some ([Event.streamError ("err".toList), Event.textChunk ("hi".toList),
             Event.streamEnd], Outcome.completed) := by
  decide
theorem runEmitter_no_empty_chunk (sizeTh timeTh : Nat) (clock : Nat → Nat) :
    ∀ (texts : List (List Char)) (st : EmitSt), (∀ t ∈ texts, t ≠ []) →
    Event.textChunk [] ∉ st.events →
    Event.textChunk [] ∉ (forceFlush (runEmitter sizeTh timeTh clock st texts)).events := by
  intro texts
  induction texts with
  | nil =>
    intro st _ hst
    simp only [runEmitter, List.foldl_nil, forceFlush]
    split
    · exact hst
    · next hacc =>
      simp only [List.mem_append, List.mem_singleton]
      rintro (h | h)
      · exact hst h
      · rw [Event.textChunk.injEq] at h
        rw [← h] at hacc
        simp at hacc
  | cons t ts ih =>
    intro st ht hst
    have htne : t ≠ [] := ht t (List.mem_cons_self _ _)
    have hts : ∀ x ∈ ts, x ≠ [] := fun x hx => ht x (List.mem_cons_of_mem _ hx)
    simp only [runEmitter, List.foldl_cons]
    have hnext : Event.textChunk [] ∉ (acceptText sizeTh timeTh clock st t).events := by
      simp only [acceptText]
      split
      · simp only [List.mem_append, List.mem_singleton]
        rintro (h | h)
        · exact hst h
        · rw [Event.textChunk.injEq] at h
          exact htne (List.append_eq_nil.mp h.symm).2
      · exact hst
    exact ih (acceptText sizeTh timeTh clock st t) hts hnext

/-- C5 (amended): if every text accepted by the coalescing emitter is
non-empty then every emitted TextChunk is non-empty, for any thresholds
and clock. The frozen claim, which asserts this for every input without
the non-emptiness proviso, is refuted by empty_chunk_counterexample: a
TextDelta resolving to the empty string while the time threshold has
elapsed makes the source emit an empty chat_chunk, as its flush sites
check only the thresholds. -/
theorem emitter_nonempty_chunks (sizeTh timeTh : Nat) (clock : Nat → Nat)
    (t0 : Nat) (texts : List (List Char)) (h : ∀ t ∈ texts, t ≠ []) :
    Event.textChunk [] ∉
      (forceFlush (runEmitter sizeTh timeTh clock ⟨[], t0, 0, []⟩ texts)).events :=
  runEmitter_no_empty_chunk sizeTh timeTh clock texts ⟨[], t0, 0, []⟩ h (by simp)

/-- Witness for C5's amended statement with two non-empty accepted
texts. -/
theorem emitter_nonempty_chunks_witness :
    Event.textChunk [] ∉
      (forceFlush (runEmitter 50 100 (fun _ => 200) ⟨[], 0, 0, []⟩
        [("hi".toList), ("ho".toList)])).events :=
  emitter_nonempty_chunks 50 100 (fun _ => 200) 0 [("hi".toList), ("ho".toList)]
    (by decide)

/-- Counterexample for C5 as frozen: the line 0:"" resolves to the empty
string; with the time threshold elapsed (clock reading 200 ms against
last_emit 0) the source emits an empty chat_chunk, so a TextChunk with
empty payload is delivered. -/
theorem empty_chunk_counterexample :
    runSession 50 100 (fun _ => 200) 0 [ChunkItem.ok (asciiBytes ("0:\"\"\n"))] =
      some ([Event.textChunk [], Event.streamEnd], Outcome.completed) := by
  decide

/-- C6: a non-success HTTP status before any chunk is read makes the
command emit exactly one event, a StreamError carrying the status and the
server's response body, and return Err with the same message, for every
would-be chunk stream: the per-line loop is never entered, so there are
zero TextChunk and zero StreamEnd events. -/
theorem http_error_single_event (status body : List Char) (clock : Nat → Nat)
    (t0 : Nat) (chunks : List ChunkItem) :
    chatMastra false status body clock t0 chunks =
      some ([Event.streamError (statusErrMsg status body)],
            Outcome.failed (statusErrMsg status body)) := rfl
theorem runChunks_errList (sizeTh timeTh : Nat) (clock : Nat → Nat)
    (e : List Char) (rest : List ChunkItem) :
    ∀ (bss : List (List Nat)) (st : DecodeState), '\n' ∉ st.buffer →
    runChunks sizeTh timeTh clock st (bss.map ChunkItem.ok ++ ChunkItem.err e :: rest) =
      (feedText sizeTh timeTh clock st ((bss.map utf8Lossy).flatten)).map
        (fun st2 => (st2.es.events ++ [Event.streamError (streamErrMsg e)],
                     Outcome.failed (streamErrMsg e))) := by
  intro bss
  induction bss with
  | nil =>
    intro st hb
    simp only [List.map_nil, List.nil_append, runChunks, List.flatten_nil, feedText,
      List.append_nil, extractLines_of_noNl st.buffer hb, processLines,
      Option.map_some']
  | cons bs bss ih =>
    intro st hb
    simp only [List.map_cons, List.cons_append, runChunks, List.flatten_cons]
    rw [← feedText_comp]
    cases hF : feedText sizeTh timeTh clock st (utf8Lossy bs) with
    | none => simp
    | some st2 =>
      simp only [Option.bind_some]
      exact ih st2 (feedText_noNl sizeTh timeTh clock st st2 _ hF)

/-- C7: when the transport read of a chunk fails mid-stream, the session
emits one StreamError carrying the formatted error message as its last
event, terminates with Err of the same message, never emits StreamEnd, and
reads nothing further: the result is identical for every possible
continuation of the stream after the failed read. -/
theorem transport_error_stops (sizeTh timeTh : Nat) (clock : Nat → Nat)
    (t0 : Nat) (pre : List (List Nat)) (e : List Char) (rest : List ChunkItem)
    (evs : List Event) (o : Outcome)
    (h : runSession sizeTh timeTh clock t0
        (pre.map ChunkItem.ok ++ ChunkItem.err e :: rest) = some (evs, o)) :
    o = Outcome.failed (streamErrMsg e) ∧
    (∃ E, evs = E ++ [Event.streamError (streamErrMsg e)] ∧ Event.streamEnd ∉ E) ∧
    ∀ rest2, runSession sizeTh timeTh clock t0
        (pre.map ChunkItem.ok ++ ChunkItem.err e :: rest2) = some (evs, o) := by
  have hrw := runChunks_errList sizeTh timeTh clock e rest pre
    ⟨[], ⟨[], t0, 0, []⟩⟩ (by simp)
  rw [runSession] at h
  rw [hrw] at h
  cases hF : feedText sizeTh timeTh clock ⟨[], ⟨[], t0, 0, []⟩⟩
      ((pre.map utf8Lossy).flatten) with
  | none => rw [hF] at h; simp at h
  | some st2 =>
    rw [hF] at h
    simp only [Option.map_some', Option.some.injEq] at h
    obtain ⟨hevs, ho⟩ : st2.es.events ++ [Event.streamError (streamErrMsg e)] = evs ∧
        Outcome.failed (streamErrMsg e) = o :=
      ⟨congrArg Prod.fst h, congrArg Prod.snd h⟩
    obtain ⟨-, -, new, he, hn⟩ := feedText_spec sizeTh timeTh clock _ st2 _ hF
    simp only at he
    refine ⟨ho.symm, ⟨st2.es.events, hevs.symm, ?_⟩, ?_⟩
    · rw [he]
      simpa using hn
    · intro rest2
      rw [runSession, runChunks_errList sizeTh timeTh clock e rest2 pre
        ⟨[], ⟨[], t0, 0, []⟩⟩ (by simp), hF]
      simp only [Option.map_some', Option.some.injEq]
      rw [h]

/-- Witness for C7: one good chunk, then a failed read, then a further
chunk that is never consumed. -/
theorem transport_error_stops_witness :
    Outcome.failed (streamErrMsg ("boom".toList)) =
      Outcome.failed (streamErrMsg ("boom".toList)) ∧
    (∃ E, [Event.streamError (streamErrMsg ("boom".toList))] =
        E ++ [Event.streamError (streamErrMsg ("boom".toList))] ∧
      Event.streamEnd ∉ E) ∧
    ∀ rest2, runSession 50 100 (fun _ => 0) 0
        ([asciiBytes ("0:\"hi\"")].map ChunkItem.ok ++
          ChunkItem.err ("boom".toList) :: rest2) =
      some ([Event.streamError (streamErrMsg ("boom".toList))],
            Outcome.failed (streamErrMsg ("boom".toList))) := by
  have h := transport_error_stops 50 100 (fun _ => 0) 0 [asciiBytes ("0:\"hi\"")]
    ("boom".toList) [ChunkItem.ok (asciiBytes ("never\n"))]
    [Event.streamError (streamErrMsg ("boom".toList))]
    (Outcome.failed (streamErrMsg ("boom".toList))) (by decide)
  exact h
theorem isPrefixOf_append (p l : List Char) : (p.isPrefixOf (p ++ l)) = true := by
  induction p with
  | nil => simp [List.isPrefixOf]
  | cons c cs ih => simp [List.isPrefixOf, ih]

/-- C8 (amended): the resolution of an SSE data payload (a trimmed line
data: p with p neither empty nor the DONE literal) follows this order: if
p parses as JSON, the resolved text is the string value of its text field,
and the frame is dropped when that field is absent or not a string — in
particular a payload that parses as a bare JSON string literal is dropped,
refuting the frozen claim (sse_json_literal_counterexample); only if JSON
parsing fails is the non-empty raw payload accepted as plain text. -/
theorem sse_resolution_order (sizeTh timeTh : Nat) (clock : Nat → Nat)
    (st : EmitSt) (data : List Char)
    (hTrim : rustTrim (("data: ".toList) ++ data) = ("data: ".toList) ++ data)
    (hNotDone : data ≠ ("[DONE]".toList)) :
    (∀ j s, jsonParse data = some j →
        (j.getField ("text".toList)).bind Json.asStr = some s →
        processLine sizeTh timeTh clock st (("data: ".toList) ++ data) =
          some (acceptText sizeTh timeTh clock st s)) ∧
    (∀ j, jsonParse data = some j →
        (j.getField ("text".toList)).bind Json.asStr = none →
        processLine sizeTh timeTh clock st (("data: ".toList) ++ data) = some st) ∧
    (jsonParse data = none → data ≠ [] →
        processLine sizeTh timeTh clock st (("data: ".toList) ++ data) =
          some (acceptText sizeTh timeTh clock st data)) := by
  have hne : ¬(rustTrim (("data: ".toList) ++ data)).isEmpty := by
    rw [hTrim]
    simp
  have hcolon : (rustTrim (("data: ".toList) ++ data))[1]? = some 'a' := by
    rw [hTrim]
    rfl
  have hG : ¬(2 ≤ byteLen (rustTrim (("data: ".toList) ++ data)) ∧
      (rustTrim (("data: ".toList) ++ data))[1]? = some ':') := by
    rintro ⟨-, h2⟩
    rw [hcolon] at h2
    simp at h2
  have hpre : ("data: ".toList).isPrefixOf (rustTrim (("data: ".toList) ++ data)) = true := by
    rw [hTrim]
    exact isPrefixOf_append _ _
  have hdrop : (rustTrim (("data: ".toList) ++ data)).drop 6 = data := by
    rw [hTrim]
    have h6 : ("data: ".toList).length = 6 := rfl
    rw [← h6]
    exact List.drop_left _ _
  refine ⟨?_, ?_, ?_⟩
  · intro j s hj hs
    simp only [processLine, hne, hG, hpre, hdrop, hNotDone, sseResolve, hj, hs,
      if_false, if_true, Bool.false_eq_true]
  · intro j hj hs
    simp only [processLine, hne, hG, hpre, hdrop, hNotDone, sseResolve, hj, hs,
      if_false, if_true, Bool.false_eq_true]
  · intro hj hd
    simp only [processLine, hne, hG, hpre, hdrop, hNotDone, sseResolve, hj,
      List.isEmpty_eq_true, hd, if_false, if_true, Bool.false_eq_true]

/-- Witness for C8's amended statement: the payload with a text field
resolves to that field's string and is accepted. -/
theorem sse_resolution_order_witness :
    processLine 50 100 (fun _ => 0) ⟨[], 0, 0, []⟩
        (("data: ".toList) ++ ("\x7b\"text\":\"hi\"\x7d".toList)) =
      some (acceptText 50 100 (fun _ => 0) ⟨[], 0, 0, []⟩ ("hi".toList)) :=
  (sse_resolution_order 50 100 (fun _ => 0) ⟨[], 0, 0, []⟩
      ("\x7b\"text\":\"hi\"\x7d".toList) (by decide) (by decide)).1
    (Json.obj [(("text".toList), Json.str ("hi".toList))]) ("hi".toList) rfl rfl

/-- Counterexample for C8 as frozen: the SSE payload consisting of the
JSON string literal with content hi parses as JSON; the claim says it
resolves to hi, but the decoder looks only for a text field, finds none,
and drops the frame: the session emits no TextChunk at all. -/
theorem sse_json_literal_counterexample :
    runSession 50 100 (fun _ => 0) 0
        [ChunkItem.ok (asciiBytes ("data: \"hi\"\n"))] =
      some ([Event.streamEnd], Outcome.completed) := by
  decide
/-- C9: for the input consisting of the line data: followed by the JSON
object with text field hi, then the line data: DONE, then graceful
end-of-stream, the decoder emits exactly TextChunk(hi) followed by
StreamEnd, whatever the clock readings: either the time threshold flushes
the text at acceptance or the DONE flush emits it, and both runs end with
the single StreamEnd of the epilogue. -/
theorem sse_example_events (clock : Nat → Nat) (t0 : Nat) :
    runSession 50 100 clock t0
        [ChunkItem.ok (asciiBytes ("data: \x7b\"text\":\"hi\"\x7d\ndata: [DONE]\n"))] =
      some ([Event.textChunk ("hi".toList), Event.streamEnd], Outcome.completed) := by
  have key : runSession 50 100 clock t0
      [ChunkItem.ok (asciiBytes ("data: \x7b\"text\":\"hi\"\x7d\ndata: [DONE]\n"))] =
      some (finishEOS ⟨[], forceFlush
        (acceptText 50 100 clock ⟨[], t0, 0, []⟩ ("hi".toList))⟩) := rfl
  rw [key]
  have hbl : byteLen (("hi".toList)) = 2 := rfl
  by_cases hc : 100 < clock 0 - t0
  · have ha : acceptText 50 100 clock ⟨[], t0, 0, []⟩ ("hi".toList) =
        ⟨[], clock 0, 1, [Event.textChunk ("hi".toList)]⟩ := by
      simp only [acceptText, List.nil_append, hbl]
      rw [if_pos (Or.inr hc)]
    rw [ha]
    rfl
  · have ha : acceptText 50 100 clock ⟨[], t0, 0, []⟩ ("hi".toList) =
        ⟨("hi".toList), t0, 1, []⟩ := by
      simp only [acceptText, List.nil_append, hbl]
      rw [if_neg]
      rintro (h | h)
      · exact absurd h (by decide)
      · exact hc h
    rw [ha]
    rfl

/-- C10: the per-line processing is NOT total. The line whose bytes are
E2 82 AC 3A 78 (the three-byte character U+20AC, then a colon, then x)
satisfies the multiplexed guard — its byte length is 5 and its second
character is the colon — yet the payload slice of line 303, modelled by
byteDrop 2, falls inside the first character, which in Rust is a panic
(byte index 2 is not a char boundary): the whole session aborts, returning
none in this embedding. This confirms the failing input of the code_bug
verdict for the claim. -/
theorem mux_slice_panics :
    runSession 50 100 (fun _ => 0) 0
        [ChunkItem.ok [0xE2, 0x82, 0xAC, 0x3A, 0x78, 0x0A]] = none := by
  decide
